import Mathlib

/-!
Shallow embedding of the adaptive quiz engine of `korean_quiz.py`:
vocabulary loading and validation, the sampling-weight function, weighted
question construction, per-term answer-history bookkeeping, streak updates,
and the progress save/load round trip.

Python floats are modelled as exact rationals (all constants involved are
exact decimals and both the code and the specification use the same
operations).  Python dicts are modelled as association lists in insertion
order, which is the iteration order Python guarantees.  Randomness
(`random.sample`, `random.choices`, `random.shuffle`) is modelled by passing
the outcome of each draw as an explicit argument: a list of chosen indices
for `sample`, a chosen pool index for `choices`, and quantification over
permutations of the option list for `shuffle`.
-/

namespace KoreanQuiz

/-- JSON-like values: the data read from and written to disk by the program. -/
inductive JValue where
  | jnull
  | jbool (b : Bool)
  | jnum (n : Int)
  | jstr (s : String)
  | jarr (xs : List JValue)
  | jobj (fields : List (String × JValue))

mutual

/-- Python `repr` of a JSON-like value (used by `str` on non-string values). -/
def pyRepr : JValue → String
  | .jnull => "None"
  | .jbool b => if b then "True" else "False"
  | .jnum n => toString n
  | .jstr s => "'" ++ s ++ "'"
  | .jarr xs => "[" ++ String.intercalate ", " (pyReprList xs) ++ "]"
  | .jobj fs => "\x7b" ++ String.intercalate ", " (pyReprFields fs) ++ "\x7d"

/-- Python `repr` of each element of a list. -/
def pyReprList : List JValue → List String
  | [] => []
  | v :: vs => pyRepr v :: pyReprList vs

/-- Python `repr` of each key-value pair of an object. -/
def pyReprFields : List (String × JValue) → List String
  | [] => []
  | (k, v) :: fs => ("'" ++ k ++ "': " ++ pyRepr v) :: pyReprFields fs

end

/-- Python `str()` applied to a JSON-like value: a string is returned as is,
anything else falls back to its `repr`. -/
def pyStr (v : JValue) : String :=
  match v with
  | .jstr s => s
  | _ => pyRepr v

/-- Python `int()` applied to a JSON-like value: succeeds on ints, booleans
and integer-shaped strings, fails (raises) on everything else. -/
def pyInt (v : JValue) : Option Int :=
  match v with
  | .jnum n => some n
  | .jbool b => some (if b then 1 else 0)
  | .jstr s => s.toInt?
  | _ => none

/-- Python `bool()` of a value admitted by `isinstance(value, (int, bool))`,
as used to normalise history entries; other values are filtered out. -/
def jsonBit (v : JValue) : Option Bool :=
  match v with
  | .jnum n => some (decide (n ≠ 0))
  | .jbool b => some b
  | _ => none

/-- Python `dict.get(k)` on a dict kept as an association list in insertion
order: the value at the first matching key. -/
def alookup (l : List (String × α)) (k : String) : Option α :=
  match l with
  | [] => none
  | (k', v) :: t => if k' = k then some v else alookup t k

/-- Python `dict.setdefault(k, d)` followed by an in-place update of the
value: updates the value in place when the key exists, otherwise appends a
fresh entry at the end (Python dicts keep insertion order). -/
def upsert (l : List (String × α)) (k : String) (f : Option α → α) : List (String × α) :=
  match l with
  | [] => [(k, f none)]
  | (k', v) :: t => if k' = k then (k', f (some v)) :: t else (k', v) :: upsert t k f

/-- Python `l[-n:]`: the last `n` elements of a list. -/
def takeLast (n : Nat) (l : List α) : List α :=
  l.drop (l.length - n)

/-- History of one vocabulary term: most-recent-last boolean outcomes
(`True` = answered correctly; the file stores them as `1`/`0`). -/
abbrev History := List Bool

/-- Per-category stats: term to history, in insertion order.  The source
wraps each history in a one-key dict `\x7b"history": h\x7d`, which every
reader and writer creates and unwraps uniformly, so the wrapper is elided. -/
abbrev CategoryStats := List (String × History)

/-- Progress: category name to per-category stats. -/
abbrev Progress := List (String × CategoryStats)

/-- Appending one outcome in `QuizApp.handle_answer`:
`history.append(1 if is_correct else 0)` then
`if len(history) > 10: del history[:-10]`. -/
def record_outcome (history : History) (is_correct : Bool) : History :=
  let h := history ++ [is_correct]
  if 10 < h.length then h.drop (h.length - 10) else h

/-- The stats-level part of `QuizApp.handle_answer`: look the term up with
`setdefault` (creating `\x7b"history": []\x7d` on first occurrence) and
append the outcome to its history. -/
def record_outcome_stats (stats : CategoryStats) (term : String) (is_correct : Bool) :
    CategoryStats :=
  upsert stats term (fun h => record_outcome (h.getD []) is_correct)

/-- The progress-level part of `QuizApp.handle_answer`:
`stats = self.progress.setdefault(category, \x7b\x7d)` then record into it. -/
def record_event (p : Progress) (category term : String) (is_correct : Bool) : Progress :=
  upsert p category (fun s => record_outcome_stats (s.getD []) term is_correct)

/-- The initial progress produced by `load_progress` when no file exists:
`\x7bcategory: \x7b\x7d for category in categories\x7d`. -/
def init_progress (categories : List String) : Progress :=
  categories.map (fun c => (c, []))

/-- A progress value built purely by a sequence of `handle_answer` history
updates starting from the empty per-category maps. -/
def apply_events (categories : List String) (events : List (String × String × Bool)) :
    Progress :=
  events.foldl (fun p e => record_event p e.1 e.2.1 e.2.2) (init_progress categories)

/-- The weighting function `compute_weight(history, mode)` (floats as exact
rationals). -/
def compute_weight (history : History) (mode : String) : ℚ :=
  let attempts := history.length
  let wrong := history.count false
  let wrong_ratio : ℚ := if attempts = 0 then 1 else (wrong : ℚ) / (attempts : ℚ)
  let weight : ℚ :=
    if attempts < 10 then
      let fill : ℚ := ((10 - attempts : ℕ) : ℚ)
      if mode = "fresh" then 18 + fill * 8 + wrong_ratio * 4
      else 10 + fill * 5 + wrong_ratio * 8
    else
      if wrong_ratio = 0 then (if mode = "fresh" then 1/4 else 1/10)
      else
        let base : ℚ := if mode = "fresh" then 3/2 else 1
        let multiplier : ℚ := if mode = "fresh" then 8 else 14
        base + wrong_ratio * multiplier
  max weight (1/10)

/-- The specification's piecewise weight formula, written from the spec's
words: attempts, wrong count, wrong ratio (1.0 when never seen), the
window-fill branch, the full-window zero-wrong branch, and the final floor
at 0.1. -/
def spec_weight (history : History) (mode : String) : ℚ :=
  let attempts := history.length
  let wrong := history.count false
  let wrong_ratio : ℚ := if attempts = 0 then 1 else (wrong : ℚ) / (attempts : ℚ)
  let value : ℚ :=
    if attempts < 10 then
      if mode = "fresh" then 18 + ((10 - attempts : ℕ) : ℚ) * 8 + wrong_ratio * 4
      else 10 + ((10 - attempts : ℕ) : ℚ) * 5 + wrong_ratio * 8
    else
      if wrong_ratio = 0 then (if mode = "fresh" then 1/4 else 1/10)
      else
        if mode = "fresh" then 3/2 + wrong_ratio * 8
        else 1 + wrong_ratio * 14
  max value (1/10)

/-- A multiple-choice question as built by `make_question`. -/
structure Question where
  prompt : String
  options : List String
  answer : String
  korean : String
deriving DecidableEq

/-- The distractor candidate list of `make_question`: the answer-side field
of every pool item whose value differs from the selected item's value
(`[candidate for _, candidate in pool if candidate != english]` for
direction `ko-en`, and symmetrically for the other direction).  Note that
the list keeps one entry per pool item, so a value shared by several items
appears several times. -/
def distractor_pool (pool : List (String × String)) (direction : String)
    (selected : String × String) : List String :=
  if direction = "ko-en" then
    (pool.map Prod.snd).filter (fun c => decide (c ≠ selected.2))
  else
    (pool.map Prod.fst).filter (fun c => decide (c ≠ selected.1))

/-- The function `make_question(pool, selected, direction)`.  The outcome of
`random.sample(distractors, k=3)` is passed in as `idxs`, the list of chosen
positions in the distractor list (a valid draw is three pairwise-distinct
in-range positions); `random.shuffle` is modelled by quantifying theorems
over all permutations of the option list.  Raising `ValueError` for fewer
than three distractors is modelled by `none`. -/
def make_question (pool : List (String × String)) (selected : String × String)
    (direction : String) (idxs : List Nat) : Option Question :=
  let distractors := distractor_pool pool direction selected
  if distractors.length < 3 then none
  else
    let ans := if direction = "ko-en" then selected.2 else selected.1
    let pr := if direction = "ko-en" then selected.1 else selected.2
    some ⟨pr, idxs.map (fun i => distractors.getD i "") ++ [ans], ans, selected.1⟩

/-- The function `build_question(pool, stats, mode, direction)`: weights are
computed for every pool item and `random.choices` performs one weighted
draw; since every weight is positive, any index of the pool is a possible
outcome of the draw, so the drawn index is passed in as `sel`. -/
def build_question (pool : List (String × String)) (stats : CategoryStats)
    (mode direction : String) (sel : Nat) (idxs : List Nat) : Option Question :=
  let _weights := pool.map (fun kv => compute_weight ((alookup stats kv.1).getD []) mode)
  make_question pool (pool.getD sel ("", "")) direction idxs

/-- Error outcomes of `load_vocab`, one per distinct `ValueError` message. -/
inductive VocabError where
  | invalidEntry
  | missingFields
  | tooFewEntries
  | tooFewUniqueTranslations
  | tooFewUniqueTerms
deriving DecidableEq

/-- The entry loop of `load_vocab`: each entry must be an object
(`isinstance(item, dict)`) carrying `korean` and `english` keys; both values
are passed through `str()`.  The first offending entry raises. -/
def parse_vocab_entries : List JValue → Except VocabError (List (String × String))
  | [] => .ok []
  | item :: rest =>
    match item with
    | .jobj fields =>
      match alookup fields "korean", alookup fields "english" with
      | some kv, some ev =>
        match parse_vocab_entries rest with
        | .ok tail => .ok ((pyStr kv, pyStr ev) :: tail)
        | .error e => .error e
      | _, _ => .error .missingFields
    | _ => .error .invalidEntry

/-- The function `load_vocab` applied to the parsed JSON list: the entry
loop followed by the three size checks (at least four entries, four unique
translations, four unique Korean entries). -/
def load_vocab (raw : List JValue) : Except VocabError (List (String × String)) :=
  match parse_vocab_entries raw with
  | .error e => .error e
  | .ok vocabulary =>
    if vocabulary.length < 4 then .error .tooFewEntries
    else if ((vocabulary.map Prod.snd).dedup).length < 4 then .error .tooFewUniqueTranslations
    else if ((vocabulary.map Prod.fst).dedup).length < 4 then .error .tooFewUniqueTerms
    else .ok vocabulary

/-- Whether a raw vocabulary entry passes the per-entry checks of
`load_vocab`: an object carrying both a `korean` and an `english` key. -/
def isGoodEntry (v : JValue) : Bool :=
  match v with
  | .jobj fields => (alookup fields "korean").isSome && (alookup fields "english").isSome
  | _ => false

/-- Whether a `load_vocab` outcome is a per-entry failure (as opposed to a
size-check failure or success). -/
def isEntryError (r : Except VocabError (List (String × String))) : Bool :=
  match r with
  | .error .invalidEntry => true
  | .error .missingFields => true
  | _ => false

/-- The per-record history parsing of `load_progress` (lines 216-242): an
object with a `history` list gives the normalised list; an object without
one is read as a legacy `\x7battempts, correct\x7d` aggregate (both coerced
with `int()`, falling back to zero on failure) and synthesised as correct
outcomes first, then wrong ones, into at most ten slots; a bare array is a
raw history; anything else is empty. -/
def parse_history (record : JValue) : History :=
  match record with
  | .jobj fields =>
    match alookup fields "history" with
    | some (.jarr xs) => xs.filterMap jsonBit
    | _ =>
      let attempts := (alookup fields "attempts").getD (.jnum 0)
      let correct := (alookup fields "correct").getD (.jnum 0)
      match pyInt attempts, pyInt correct with
      | some ai, some ci =>
        if 0 < ai then
          let ci' := max 0 (min ci ai)
          let wrong := ai - ci'
          List.replicate (min ci' 10).toNat true
            ++ List.replicate (min wrong (10 - min ci' 10)).toNat false
        else []
      | _, _ => []
  | .jarr xs => xs.filterMap jsonBit
  | _ => []

/-- The specification's description of the legacy aggregate conversion: the
clamped number of correct outcomes first, then the wrong outcomes, the
whole clipped to ten slots. -/
def spec_legacy_history (attempts correct : Int) : History :=
  if 0 < attempts then
    let c := max 0 (min correct attempts)
    (List.replicate c.toNat true ++ List.replicate (attempts - c).toNat false).take 10
  else []

/-- The per-category loop body of `load_progress` (lines 215-246): parse
each record, keep the last ten entries, and drop terms whose history came
out empty.  A non-object category payload is skipped, leaving the empty
stats. -/
def load_category (raw : JValue) : CategoryStats :=
  match raw with
  | .jobj fields =>
    fields.filterMap (fun kr =>
      let history := takeLast 10 (parse_history kr.2)
      if history.isEmpty then none else some (kr.1, history))
  | _ => []

/-- The progress part of `load_progress` applied to the parsed JSON value of
an existing file: a non-object file raises, otherwise each requested
category is read with `load_category` (missing categories default to the
empty object). -/
def load_progress_data (data : JValue) (categories : List String) :
    Except String Progress :=
  match data with
  | .jobj fields =>
    .ok (categories.map (fun c => (c, load_category ((alookup fields c).getD (.jobj [])))))
  | _ => .error "Progress file must contain a JSON object."

/-- The per-category serialisation of `QuizApp.save_progress`: normalise
each history, keep the last ten entries, and skip terms whose history is
empty. -/
def save_category (stats : CategoryStats) : JValue :=
  .jobj (stats.filterMap (fun kh =>
    let history := takeLast 10 kh.2
    if history.isEmpty then none
    else some (kh.1, JValue.jobj [("history",
      JValue.jarr (history.map (fun b => JValue.jnum (if b then 1 else 0))))])))

/-- The payload built by `QuizApp.save_progress`: the metadata block first,
then one entry per category in order (`self.progress.get(category, \x7b\x7d)`). -/
def save_progress (categories : List String) (p : Progress) (meta : JValue) : JValue :=
  .jobj (("__meta__", meta) ::
    categories.map (fun c => (c, save_category ((alookup p c).getD []))))

/-- The streak fields of `QuizApp` (`current_streak`, `streak_timestamp`,
`longest_streak`, `longest_streak_timestamp`). -/
structure StreakMeta where
  current_streak : Nat
  streak_timestamp : String
  longest_streak : Nat
  longest_streak_timestamp : String
deriving DecidableEq

/-- The streak update of `QuizApp.handle_answer` (lines 1165-1174): on a
correct answer increment the current streak, stamp it, and lift the longest
streak when exceeded; on a wrong answer reset the current streak to zero
and stamp it. -/
def update_streak (m : StreakMeta) (is_correct : Bool) (now : String) : StreakMeta :=
  if is_correct then
    let cur := m.current_streak + 1
    if m.longest_streak < cur then ⟨cur, now, cur, now⟩
    else ⟨cur, now, m.longest_streak, m.longest_streak_timestamp⟩
  else
    ⟨0, now, m.longest_streak, m.longest_streak_timestamp⟩

/-! ## Helper lemmas -/

theorem takeLast_length (n : Nat) (l : List α) : (takeLast n l).length = min n l.length := by
  simp only [takeLast, List.length_drop]
  omega

theorem takeLast_of_length_le {n : Nat} {l : List α} (h : l.length ≤ n) :
    takeLast n l = l := by
  have hz : l.length - n = 0 := by omega
  simp [takeLast, hz]

theorem record_outcome_eq (h : History) (o : Bool) :
    record_outcome h o = takeLast 10 (h ++ [o]) := by
  simp only [record_outcome]
  split
  · rfl
  · next hle =>
    exact (takeLast_of_length_le (by omega)).symm

theorem record_outcome_length_le (h : History) (o : Bool) :
    (record_outcome h o).length ≤ 10 := by
  rw [record_outcome_eq, takeLast_length]
  omega

theorem record_outcome_ne_nil (h : History) (o : Bool) :
    record_outcome h o ≠ [] := by
  have hl := takeLast_length 10 (h ++ [o])
  rw [← record_outcome_eq] at hl
  intro heq
  rw [heq] at hl
  simp at hl
  omega

theorem takeLast_append_takeLast (n : Nat) (l os : List α) :
    takeLast n (takeLast n l ++ os) = takeLast n (l ++ os) := by
  simp only [takeLast, List.length_append, List.length_drop,
    List.drop_append_eq_append_drop, List.drop_drop]
  congr 1
  · congr 1
    omega
  · congr 1
    omega

theorem foldl_record_outcome (os : List Bool) (h : History) (hle : h.length ≤ 10) :
    List.foldl record_outcome h os = takeLast 10 (h ++ os) := by
  induction os generalizing h with
  | nil => simp [takeLast_of_length_le hle]
  | cons o os ih =>
    rw [List.foldl_cons, ih _ (record_outcome_length_le h o), record_outcome_eq,
      takeLast_append_takeLast, List.append_assoc]
    rfl

theorem alookup_upsert_self (l : List (String × α)) (k : String) (f : Option α → α) :
    alookup (upsert l k f) k = some (f (alookup l k)) := by
  induction l with
  | nil => simp [upsert, alookup]
  | cons kv t ih =>
    obtain ⟨k', v⟩ := kv
    by_cases hk : k' = k
    · simp [upsert, alookup, hk]
    · simp [upsert, alookup, hk, ih]

/-! ## Claim theorems -/

/-- C1: for every history of at most ten boolean outcomes and mode in
`fresh`/`review`, `compute_weight` equals the spec's piecewise formula
(window-fill branch, full-window zero-wrong branch, floor at 0.1) and the
result is strictly positive. -/
theorem C1_compute_weight_matches_spec (history : List Bool) (mode : String)
    (_hlen : history.length ≤ 10) (hmode : mode = "fresh" ∨ mode = "review") :
    compute_weight history mode = spec_weight history mode ∧
      0 < compute_weight history mode := by
  constructor
  · rcases hmode with h | h <;> subst h <;> simp [compute_weight, spec_weight]
  · calc (0 : ℚ) < 1/10 := by norm_num
      _ ≤ compute_weight history mode := by
          unfold compute_weight
          exact le_max_right _ _

/-- Witness for C1 at the one-element all-correct history in review mode. -/
theorem C1_witness :
    ([true] : List Bool).length ≤ 10 ∧
      (compute_weight [true] "review" = spec_weight [true] "review" ∧
        0 < compute_weight [true] "review") :=
  ⟨by decide, C1_compute_weight_matches_spec [true] "review" (by decide) (Or.inr rfl)⟩

/-- C10: `compute_weight` only compares the mode against `"fresh"`, so any
other mode string behaves exactly like `"review"`. -/
theorem C10_nonfresh_mode_is_review (history : List Bool) (m : String)
    (h : m ≠ "fresh") :
    compute_weight history m = compute_weight history "review" := by
  simp [compute_weight, h]

/-- Witness for C10 at an unrecognised mode string. -/
theorem C10_witness :
    "bogus" ≠ "fresh" ∧ compute_weight [] "bogus" = compute_weight [] "review" :=
  ⟨by decide, C10_nonfresh_mode_is_review [] "bogus" (by decide)⟩

/-- C7: a correct outcome increments the current streak and stamps it, and
lifts the longest streak (with its timestamp) exactly when the new current
streak exceeds it; a wrong outcome resets the current streak to zero,
stamps it, and leaves the longest streak untouched; plus the concrete
scenario from `current=3, longest=5`. -/
theorem C7_update_streak_behaviour :
    (∀ (m : StreakMeta) (now : String),
      (update_streak m true now).current_streak = m.current_streak + 1 ∧
      (update_streak m true now).streak_timestamp = now ∧
      (update_streak m true now).longest_streak =
        (if m.longest_streak < m.current_streak + 1 then m.current_streak + 1
         else m.longest_streak) ∧
      (update_streak m true now).longest_streak_timestamp =
        (if m.longest_streak < m.current_streak + 1 then now
         else m.longest_streak_timestamp)) ∧
    (∀ (m : StreakMeta) (now : String),
      update_streak m false now = ⟨0, now, m.longest_streak, m.longest_streak_timestamp⟩) ∧
    update_streak ⟨3, "t0", 5, "t1"⟩ true "a" = ⟨4, "a", 5, "t1"⟩ ∧
    update_streak (update_streak (update_streak ⟨3, "t0", 5, "t1"⟩ true "a") true "b")
        true "c" = ⟨6, "c", 6, "c"⟩ ∧
    update_streak ⟨6, "c", 6, "c"⟩ false "d" = ⟨0, "d", 6, "c"⟩ := by
  refine ⟨fun m now => ⟨?_, ?_, ?_, ?_⟩, fun m now => rfl, rfl, rfl, rfl⟩ <;>
    · simp only [update_streak, if_true]
      split <;> rfl

/-- C8: after any single streak update from any starting state, the longest
streak is at least the current streak. -/
theorem C8_longest_ge_current (m : StreakMeta) (b : Bool) (now : String) :
    (update_streak m b now).current_streak ≤ (update_streak m b now).longest_streak := by
  cases b
  · simp [update_streak]
  · simp only [update_streak, if_true]
    split
    · exact le_refl _
    · next hn =>
      show m.current_streak + 1 ≤ m.longest_streak
      omega

/-- C3: recording an outcome appends it and keeps the last ten entries
(never longer than ten); after eleven appends to an empty history the first
entry is gone and the ten others remain in order; the term's entry is
created on its first recorded outcome. -/
theorem C3_record_outcome_behaviour :
    (∀ (h : History) (o : Bool), (record_outcome h o).length ≤ 10) ∧
    (∀ (h : History) (o : Bool), record_outcome h o = takeLast 10 (h ++ [o])) ∧
    (∀ os : List Bool, os.length = 11 → List.foldl record_outcome [] os = os.drop 1) ∧
    (∀ (stats : CategoryStats) (t : String) (o : Bool), alookup stats t = none →
      alookup (record_outcome_stats stats t o) t = some [o]) := by
  refine ⟨record_outcome_length_le, record_outcome_eq, ?_, ?_⟩
  · intro os hlen
    rw [foldl_record_outcome os [] (by simp), List.nil_append]
    simp [takeLast, hlen]
  · intro stats t o hnone
    rw [record_outcome_stats, alookup_upsert_self, hnone]
    rfl

theorem sampled_nodup {d : List String} (hd : d.Nodup) {idxs : List Nat}
    (hn : idxs.Nodup) (hb : ∀ i ∈ idxs, i < d.length) :
    (idxs.map (fun i => d.getD i "")).Nodup := by
  refine (List.nodup_map_iff_inj_on hn).mpr ?_
  intro i hi j hj he
  rw [List.getD_eq_getElem d "" (hb i hi), List.getD_eq_getElem d "" (hb j hj)] at he
  exact (List.Nodup.getElem_inj_iff hd).mp he

theorem sampled_mem {d : List String} {idxs : List Nat}
    (hb : ∀ i ∈ idxs, i < d.length) :
    ∀ x ∈ idxs.map (fun i => d.getD i ""), x ∈ d := by
  intro x hx
  obtain ⟨i, hi, rfl⟩ := List.mem_map.mp hx
  rw [List.getD_eq_getElem d "" (hb i hi)]
  exact List.getElem_mem _

theorem options_good {d : List String} {ans : String}
    (hans : ∀ c ∈ d, c ≠ ans) {idxs : List Nat} (hn : idxs.Nodup)
    (h3 : idxs.length = 3) (hb : ∀ i ∈ idxs, i < d.length) :
    (idxs.map (fun i => d.getD i "") ++ [ans]).length = 4 ∧
      (idxs.map (fun i => d.getD i "") ++ [ans]).count ans = 1 ∧
      (d.Nodup → (idxs.map (fun i => d.getD i "") ++ [ans]).Nodup) := by
  have hmem : ∀ x ∈ idxs.map (fun i => d.getD i ""), x ≠ ans := by
    intro x hx
    exact hans x (sampled_mem hb x hx)
  refine ⟨by simp [h3], ?_, ?_⟩
  · have h0 : (idxs.map (fun i => d.getD i "")).count ans = 0 := by
      rw [List.count_eq_zero]
      intro hc
      exact hmem ans hc rfl
    rw [List.count_append, h0]
    simp
  · intro hd
    rw [List.nodup_append]
    refine ⟨sampled_nodup hd hn hb, List.nodup_singleton ans, ?_⟩
    intro x hx hxy
    simp only [List.mem_singleton] at hxy
    subst hxy
    exact hmem x hx rfl

/-- C2 as stated is false on the code: the distractor list is not
deduplicated by value, so when two pool items share an answer value a draw
can pick both occurrences.  The pool below has five items, four distinct
translations and five distinct terms, yet the drawn options contain the
value `B` twice. -/
theorem C2_counterexample :
    4 ≤ ([("k1", "A"), ("k2", "B"), ("k3", "B"), ("k4", "C"), ("k5", "D")] :
        List (String × String)).length ∧
    4 ≤ ((([("k1", "A"), ("k2", "B"), ("k3", "B"), ("k4", "C"), ("k5", "D")] :
        List (String × String)).map Prod.snd).dedup).length ∧
    4 ≤ ((([("k1", "A"), ("k2", "B"), ("k3", "B"), ("k4", "C"), ("k5", "D")] :
        List (String × String)).map Prod.fst).dedup).length ∧
    ([0, 1, 2] : List Nat).Nodup ∧
    (distractor_pool [("k1", "A"), ("k2", "B"), ("k3", "B"), ("k4", "C"), ("k5", "D")]
        "ko-en" ("k1", "A")).length = 4 ∧
    build_question [("k1", "A"), ("k2", "B"), ("k3", "B"), ("k4", "C"), ("k5", "D")]
        [] "fresh" "ko-en" 0 [0, 1, 2] =
      some ⟨"k1", ["B", "B", "C", "A"], "A", "k1"⟩ ∧
    ¬ (["B", "B", "C", "A"] : List String).Nodup := by
  refine ⟨by decide, by decide, by decide, by decide, by decide, rfl, by decide⟩

/-- C2 amended: for every pool, stats, mode and direction, and every
possible outcome of the draws (a pool index, three pairwise-distinct
in-range distractor positions, and any shuffle of the options), the options
are four values among which the correct answer appears exactly once; and
they are pairwise distinct provided the pool's answer-side values are
pairwise distinct (value-deduplication does not happen, so shared answer
values can repeat). -/
theorem C2_amended_distinct_options (pool : List (String × String))
    (stats : CategoryStats) (mode direction : String) (sel : Nat)
    (idxs : List Nat) (q : Question) (opts : List String)
    (hn : idxs.Nodup) (h3 : idxs.length = 3)
    (hb : ∀ i ∈ idxs, i < (distractor_pool pool direction (pool.getD sel ("", ""))).length)
    (hq : build_question pool stats mode direction sel idxs = some q)
    (hperm : opts.Perm q.options) :
    opts.length = 4 ∧ opts.count q.answer = 1 ∧
      ((if direction = "ko-en" then pool.map Prod.snd else pool.map Prod.fst).Nodup →
        opts.Nodup) := by
  simp only [build_question, make_question] at hq
  set selected := pool.getD sel ("", "") with hsel
  set d := distractor_pool pool direction selected with hdp
  by_cases hlt : d.length < 3
  · rw [if_pos hlt] at hq
    exact absurd hq (by simp)
  · rw [if_neg hlt] at hq
    set ans := if direction = "ko-en" then selected.2 else selected.1 with hans
    have hqe : q = ⟨if direction = "ko-en" then selected.1 else selected.2,
        idxs.map (fun i => d.getD i "") ++ [ans], ans, selected.1⟩ :=
      (Option.some.inj hq).symm
    have hne : ∀ c ∈ d, c ≠ ans := by
      intro c hc
      rw [hdp, distractor_pool] at hc
      by_cases hdir : direction = "ko-en"
      · rw [if_pos hdir] at hc
        rw [hans, if_pos hdir]
        have := (List.mem_filter.mp hc).2
        simpa using this
      · rw [if_neg hdir] at hc
        rw [hans, if_neg hdir]
        have := (List.mem_filter.mp hc).2
        simpa using this
    obtain ⟨hl4, hc1, hnd⟩ := options_good hne hn h3 hb
    subst hqe
    dsimp only at hperm ⊢
    refine ⟨?_, ?_, ?_⟩
    · rw [hperm.length_eq]
      exact hl4
    · rw [hperm.count_eq]
      exact hc1
    · intro hvals
      have hd : d.Nodup := by
        rw [hdp, distractor_pool]
        by_cases hdir : direction = "ko-en"
        · rw [if_pos hdir]
          rw [if_pos hdir] at hvals
          exact List.Nodup.filter _ hvals
        · rw [if_neg hdir]
          rw [if_neg hdir] at hvals
          exact List.Nodup.filter _ hvals
      exact List.Perm.nodup hperm.symm (hnd hd)

/-- Witness for the amended C2 at a pool with pairwise-distinct
translations. -/
theorem C2_witness :
    ([0, 1, 2] : List Nat).Nodup ∧
      ((["B", "C", "D", "A"] : List String).length = 4 ∧
        (["B", "C", "D", "A"] : List String).count "A" = 1 ∧
        ((if "ko-en" = "ko-en"
            then ([("k1", "A"), ("k2", "B"), ("k3", "C"), ("k4", "D")] :
              List (String × String)).map Prod.snd
            else ([("k1", "A"), ("k2", "B"), ("k3", "C"), ("k4", "D")] :
              List (String × String)).map Prod.fst).Nodup →
          (["B", "C", "D", "A"] : List String).Nodup)) :=
  ⟨by decide,
    C2_amended_distinct_options [("k1", "A"), ("k2", "B"), ("k3", "C"), ("k4", "D")]
      [] "fresh" "ko-en" 0 [0, 1, 2] ⟨"k1", ["B", "C", "D", "A"], "A", "k1"⟩
      ["B", "C", "D", "A"] (by decide) rfl (by decide) rfl (List.Perm.refl _)⟩

/-- C5 as stated is false on the code: the check counts distractor
candidates with multiplicity, not distinct values.  Here the other three
pool items all share the translation `B`, so only one distinct alternative
value exists, yet question construction succeeds. -/
theorem C5_counterexample :
    ((([("k2", "B"), ("k3", "B"), ("k4", "B")] : List (String × String)).map
          Prod.snd).filter (fun c => decide (c ≠ "A"))).dedup.length < 3 ∧
    (make_question [("k1", "A"), ("k2", "B"), ("k3", "B"), ("k4", "B")] ("k1", "A")
        "ko-en" [0, 1, 2]).isSome = true := by
  refine ⟨by decide, rfl⟩

/-- C5 amended: question construction fails exactly when fewer than three
pool items (counted with multiplicity, deduplication does not happen) have
an answer-field value different from the selected item's value. -/
theorem C5_amended_failure_iff (pool : List (String × String))
    (selected : String × String) (direction : String) (idxs : List Nat) :
    make_question pool selected direction idxs = none ↔
      (distractor_pool pool direction selected).length < 3 := by
  by_cases h : (distractor_pool pool direction selected).length < 3
  · simp [make_question, h]
  · simp [make_question, h]

theorem parse_vocab_entries_error_iff (raw : List JValue) :
    (∃ e, parse_vocab_entries raw = .error e ∧
        (e = VocabError.invalidEntry ∨ e = VocabError.missingFields)) ↔
      ∃ item ∈ raw, isGoodEntry item = false := by
  induction raw with
  | nil => simp [parse_vocab_entries]
  | cons item rest ih =>
    cases item with
    | jobj fields =>
      rcases hk : alookup fields "korean" with _ | kv
      · simp [parse_vocab_entries, hk, isGoodEntry]
      · rcases he : alookup fields "english" with _ | ev
        · simp [parse_vocab_entries, hk, he, isGoodEntry]
        · have hgood : isGoodEntry (.jobj fields) = true := by simp [isGoodEntry, hk, he]
          simp only [parse_vocab_entries, hk, he]
          cases hp : parse_vocab_entries rest with
          | ok v =>
            simp [hp] at ih
            simp only [hp]
            simp [hgood]
            exact ih
          | error e =>
            simp [hp] at ih
            simp [hp, hgood, ih]
    | jnull => simp [parse_vocab_entries, isGoodEntry]
    | jbool b => simp [parse_vocab_entries, isGoodEntry]
    | jnum n => simp [parse_vocab_entries, isGoodEntry]
    | jstr s => simp [parse_vocab_entries, isGoodEntry]
    | jarr xs => simp [parse_vocab_entries, isGoodEntry]

/-- C6 as stated is false on the code: `load_vocab` passes the field values
through `str()` and never checks them, so an entry whose `korean` field is
the empty string is accepted (the other three checks also pass here). -/
theorem C6_counterexample :
    alookup [("korean", JValue.jstr ""), ("english", JValue.jstr "e1")] "korean" =
      some (JValue.jstr "") ∧
    load_vocab
        [JValue.jobj [("korean", JValue.jstr ""), ("english", JValue.jstr "e1")],
         JValue.jobj [("korean", JValue.jstr "k2"), ("english", JValue.jstr "e2")],
         JValue.jobj [("korean", JValue.jstr "k3"), ("english", JValue.jstr "e3")],
         JValue.jobj [("korean", JValue.jstr "k4"), ("english", JValue.jstr "e4")]] =
      .ok [("", "e1"), ("k2", "e2"), ("k3", "e3"), ("k4", "e4")] :=
  ⟨rfl, rfl⟩

/-- C6 amended: `load_vocab` fails with one of the two per-entry errors
exactly when some entry is not an object carrying both a `korean` and an
`english` key; field values are coerced with `str()` and neither emptiness
nor being a string is checked.  In particular a successful load means every
entry is such an object. -/
theorem C6_amended_entry_error_iff (raw : List JValue) :
    isEntryError (load_vocab raw) = true ↔ ∃ item ∈ raw, isGoodEntry item = false := by
  rw [← parse_vocab_entries_error_iff]
  unfold load_vocab
  cases hp : parse_vocab_entries raw with
  | ok v =>
    simp only [hp]
    constructor
    · intro h
      split_ifs at h <;> simp [isEntryError] at h
    · rintro ⟨e, he, _⟩
      exact absurd he (by simp)
  | error e =>
    cases e <;> simp [hp, isEntryError]

theorem replicate_append_take (m n k : Nat) (x y : α) :
    (List.replicate m x ++ List.replicate n y).take k =
      List.replicate (min k m) x ++ List.replicate (min (k - m) n) y := by
  rw [List.take_append_eq_append_take, List.take_replicate, List.take_replicate,
    List.length_replicate]

theorem parse_history_legacy (a c : Int) :
    parse_history (.jobj [("attempts", .jnum a), ("correct", .jnum c)]) =
      spec_legacy_history a c := by
  simp [parse_history, spec_legacy_history, alookup, pyInt]
  by_cases h0 : 0 < a
  · simp only [if_pos h0, replicate_append_take]
    congr 1 <;> congr 1 <;> omega
  · simp [if_neg h0]

/-- C9: a per-term object without a history array is read as a legacy
`\x7battempts, correct\x7d` aggregate and synthesised into the spec's
clamped correct-first-then-wrong history clipped to ten slots; a bare array
is treated exactly like an explicit history array; and a record whose
converted history is empty is dropped from the loaded category stats. -/
theorem C9_legacy_conversion :
    (∀ a c : Int, parse_history (.jobj [("attempts", .jnum a), ("correct", .jnum c)]) =
        spec_legacy_history a c) ∧
    (∀ xs : List JValue, parse_history (.jarr xs) =
        parse_history (.jobj [("history", .jarr xs)])) ∧
    (∀ (k : String) (r : JValue) (rest : List (String × JValue)),
        takeLast 10 (parse_history r) = [] →
        load_category (.jobj ((k, r) :: rest)) = load_category (.jobj rest)) := by
  refine ⟨parse_history_legacy, fun xs => rfl, ?_⟩
  intro k r rest h
  simp [load_category, List.filterMap_cons, h]

/-- Witness for C9 at a clamped legacy aggregate and an empty conversion. -/
theorem C9_witness :
    parse_history (.jobj [("attempts", JValue.jnum 7), ("correct", JValue.jnum 12)]) =
      spec_legacy_history 7 12 ∧
    takeLast 10 (parse_history (JValue.jobj [("attempts", JValue.jnum 0)])) = [] ∧
    load_category (.jobj [("w", JValue.jobj [("attempts", JValue.jnum 0)])]) =
      load_category (.jobj []) :=
  ⟨C9_legacy_conversion.1 7 12, rfl, C9_legacy_conversion.2.2 "w" _ [] rfl⟩

/-- Witness for C3: eleven concrete appends and a first-occurrence lookup. -/
theorem C3_witness :
    List.foldl record_outcome []
        [true, false, true, true, false, true, true, true, false, true, true] =
      [false, true, true, false, true, true, true, false, true, true] ∧
    alookup (record_outcome_stats [] "word" true) "word" = some [true] :=
  ⟨C3_record_outcome_behaviour.2.2.1 _ rfl,
   C3_record_outcome_behaviour.2.2.2 [] "word" true rfl⟩

theorem upsert_map_fst (l : List (String × α)) (k : String) (f : Option α → α)
    (hk : k ∈ l.map Prod.fst) :
    (upsert l k f).map Prod.fst = l.map Prod.fst := by
  induction l with
  | nil => simp at hk
  | cons kv t ih =>
    obtain ⟨k', v⟩ := kv
    by_cases h : k' = k
    · simp [upsert, h]
    · simp only [List.map_cons] at hk
      simp only [upsert, if_neg h, List.map_cons, List.cons.injEq, true_and]
      apply ih
      rcases List.mem_cons.mp hk with h1 | h1
      · exact absurd h1.symm h
      · exact h1

theorem mem_upsert (l : List (String × α)) (k : String) (f : Option α → α)
    (x : String × α) :
    x ∈ upsert l k f → x ∈ l ∨ x = (k, f (alookup l k)) := by
  induction l with
  | nil =>
    intro hx
    simp only [upsert, List.mem_singleton] at hx
    exact Or.inr (by rw [hx]; rfl)
  | cons kv t ih =>
    obtain ⟨k', v⟩ := kv
    intro hx
    by_cases h : k' = k
    · simp only [upsert, if_pos h] at hx
      rcases List.mem_cons.mp hx with h1 | h1
      · refine Or.inr ?_
        subst h
        rw [h1]
        simp [alookup]
      · exact Or.inl (List.mem_cons_of_mem _ h1)
    · simp only [upsert, if_neg h] at hx
      rcases List.mem_cons.mp hx with h1 | h1
      · exact Or.inl (h1 ▸ List.mem_cons_self _ _)
      · rcases ih h1 with h2 | h2
        · exact Or.inl (List.mem_cons_of_mem _ h2)
        · refine Or.inr ?_
          rw [h2]
          simp [alookup, h]

theorem alookup_mem (l : List (String × α)) (k : String) (v : α)
    (h : alookup l k = some v) : (k, v) ∈ l := by
  induction l with
  | nil => simp [alookup] at h
  | cons kv t ih =>
    obtain ⟨k', w⟩ := kv
    by_cases hk : k' = k
    · simp only [alookup, if_pos hk, Option.some.injEq] at h
      subst hk h
      exact List.mem_cons_self _ _
    · simp only [alookup, if_neg hk] at h
      exact List.mem_cons_of_mem _ (ih h)

theorem alookup_map_self (cats : List String) (g : String → α) (c : String)
    (hc : c ∈ cats) :
    alookup (cats.map (fun x => (x, g x))) c = some (g c) := by
  induction cats with
  | nil => simp at hc
  | cons a t ih =>
    by_cases h : a = c
    · simp [alookup, h]
    · rcases List.mem_cons.mp hc with h1 | h1
      · exact absurd h1.symm h
      · simp [alookup, h, ih h1]

theorem apply_fold_map_fst (events : List (String × String × Bool)) :
    ∀ p : Progress, (∀ e ∈ events, e.1 ∈ p.map Prod.fst) →
      (List.foldl (fun p e => record_event p e.1 e.2.1 e.2.2) p events).map Prod.fst =
        p.map Prod.fst := by
  induction events with
  | nil => intro p _; rfl
  | cons e es ih =>
    intro p hp
    rw [List.foldl_cons]
    have h2 : (record_event p e.1 e.2.1 e.2.2).map Prod.fst = p.map Prod.fst :=
      upsert_map_fst _ _ _ (hp e (List.mem_cons_self _ _))
    rw [ih _ (by rw [h2]; intro e' he'; exact hp e' (List.mem_cons_of_mem _ he')), h2]

theorem apply_fold_good (events : List (String × String × Bool)) :
    ∀ p : Progress,
      (∀ cs ∈ p, ∀ th ∈ cs.2, th.2 ≠ [] ∧ th.2.length ≤ 10) →
      ∀ cs ∈ List.foldl (fun p e => record_event p e.1 e.2.1 e.2.2) p events,
        ∀ th ∈ cs.2, th.2 ≠ [] ∧ th.2.length ≤ 10 := by
  induction events with
  | nil => intro p hp; exact hp
  | cons e es ih =>
    intro p hp
    rw [List.foldl_cons]
    apply ih
    intro cs hcs th hth
    rcases mem_upsert _ _ _ _ hcs with h1 | h1
    · exact hp cs h1 th hth
    · rw [h1] at hth
      rcases mem_upsert _ _ _ _ hth with h2 | h2
      · cases hsc : alookup p e.1 with
        | none => rw [hsc] at h2; simp at h2
        | some s =>
          rw [hsc] at h2
          simp only [Option.getD_some] at h2
          exact hp (e.1, s) (alookup_mem _ _ _ hsc) th h2
      · rw [h2]
        exact ⟨record_outcome_ne_nil _ _, record_outcome_length_le _ _⟩

theorem filterMap_bits (h : List Bool) :
    (h.map (fun b => JValue.jnum (if b then 1 else 0))).filterMap jsonBit = h := by
  induction h with
  | nil => rfl
  | cons b t ih =>
    cases b <;> simp [jsonBit, ih]

theorem load_save_category (s : CategoryStats)
    (hs : ∀ th ∈ s, th.2 ≠ [] ∧ th.2.length ≤ 10) :
    load_category (save_category s) = s := by
  induction s with
  | nil => rfl
  | cons th t ih =>
    obtain ⟨k, h⟩ := th
    obtain ⟨hne, hlen⟩ := hs (k, h) (List.mem_cons_self _ _)
    have ht : takeLast 10 h = h := takeLast_of_length_le hlen
    have hemp : h.isEmpty = false := by
      cases h
      · exact absurd rfl hne
      · rfl
    have ihh := ih (fun th' hth' => hs th' (List.mem_cons_of_mem _ hth'))
    have hph : parse_history (.jobj [("history",
        JValue.jarr (h.map (fun b => JValue.jnum (if b then 1 else 0))))]) = h :=
      filterMap_bits h
    simp only [save_category, List.filterMap_cons, ht, hemp, Bool.false_eq_true,
      if_false]
    simp only [load_category, List.filterMap_cons, hph, ht, hemp,
      Bool.false_eq_true, if_false]
    exact congrArg (List.cons (k, h)) ihh

theorem map_alookup_self (p : Progress) (hnd : (p.map Prod.fst).Nodup) :
    (p.map Prod.fst).map (fun c => (c, (alookup p c).getD [])) = p := by
  induction p with
  | nil => rfl
  | cons cs p' ih =>
    obtain ⟨c0, s0⟩ := cs
    simp only [List.map_cons, List.nodup_cons] at hnd ⊢
    have htail : ∀ c ∈ p'.map Prod.fst,
        ((c, (alookup ((c0, s0) :: p') c).getD []) : String × CategoryStats) =
          (c, (alookup p' c).getD []) := by
      intro c hc
      have hne : c0 ≠ c := fun he => hnd.1 (he ▸ hc)
      simp [alookup, hne]
    rw [show (alookup ((c0, s0) :: p') c0).getD [] = s0 from by simp [alookup],
      List.map_congr_left htail, ih hnd.2]

/-- C4: progress built purely by recording outcomes starting from the empty
per-category maps survives a save/load round trip unchanged (for a
well-formed category list: distinct names, none equal to the reserved
metadata key, and every event on a listed category). -/
theorem C4_round_trip (cats : List String) (events : List (String × String × Bool))
    (meta : JValue) (hnd : cats.Nodup) (hmeta : "__meta__" ∉ cats)
    (hev : ∀ e ∈ events, e.1 ∈ cats) :
    load_progress_data (save_progress cats (apply_events cats events) meta) cats =
      .ok (apply_events cats events) := by
  set p := apply_events cats events with hp
  have hinit : (init_progress cats).map Prod.fst = cats := by
    rw [init_progress, List.map_map,
      show (Prod.fst ∘ fun c : String => (c, ([] : CategoryStats))) = id from rfl,
      List.map_id]
  have hfst : p.map Prod.fst = cats := by
    rw [hp, apply_events, apply_fold_map_fst events (init_progress cats)
      (by rw [hinit]; exact hev)]
    exact hinit
  have hgood : ∀ cs ∈ p, ∀ th ∈ cs.2, th.2 ≠ [] ∧ th.2.length ≤ 10 := by
    rw [hp, apply_events]
    apply apply_fold_good
    intro cs hcs th hth
    obtain ⟨c, _, rfl⟩ := List.mem_map.mp hcs
    simp at hth
  rw [save_progress, load_progress_data]
  congr 1
  have hstep : ∀ c ∈ cats,
      ((c, load_category ((alookup (("__meta__", meta) ::
          cats.map (fun x => (x, save_category ((alookup p x).getD [])))) c).getD
            (.jobj []))) : String × CategoryStats) =
        (c, (alookup p c).getD []) := by
    intro c hc
    have hc0 : "__meta__" ≠ c := fun he => hmeta (he ▸ hc)
    simp only [alookup, if_neg hc0]
    rw [alookup_map_self cats _ c hc]
    simp only [Option.getD_some]
    rw [load_save_category]
    intro th hth
    cases hsc : alookup p c with
    | none => rw [hsc] at hth; simp at hth
    | some s =>
      rw [hsc] at hth
      simp only [Option.getD_some] at hth
      exact hgood (c, s) (alookup_mem _ _ _ hsc) th hth
  rw [List.map_congr_left hstep, ← hfst]
  exact map_alookup_self p (hfst ▸ hnd)

/-- Witness for C4 at a one-category, one-event progress. -/
theorem C4_witness :
    (["food"] : List String).Nodup ∧
      load_progress_data
          (save_progress ["food"] (apply_events ["food"] [("food", "word", true)])
            JValue.jnull) ["food"] =
        .ok (apply_events ["food"] [("food", "word", true)]) :=
  ⟨by decide,
    C4_round_trip ["food"] [("food", "word", true)] JValue.jnull (by decide)
      (by decide) (by decide)⟩

end KoreanQuiz
